import Mathlib

/-!
Verification of the Querra content-acquisition pipeline.

Strings are embedded as `List Char`.  Each definition translates the
corresponding Python function from the repository sources
(`src/utils/extractor.py`, `src/utils/search.py`, `src/utils/database.py`,
`src/app.py`); external effects (HTTP requests, HTML parsing by third-party
libraries, database commits) are passed in explicitly as environment
parameters, so that the control flow of the repository code is the only
thing the Lean functions fix.
-/

namespace Querra

/-- Whitespace in the sense of Python `str.split()` / `str.strip()`
(restricted to the ASCII whitespace characters). -/
def pyIsSpace (c : Char) : Bool :=
  c = ' ' || c = '\t' || c = '\n' || c = '\r' || c = '\x0b' || c = '\x0c'

/-- Python `s.strip()`: drop leading and trailing whitespace. -/
def pyStrip (s : List Char) : List Char :=
  ((s.dropWhile pyIsSpace).reverse.dropWhile pyIsSpace).reverse

/-- Fuelled worker for `pyWords`; the fuel dominates the length of the
remaining input, so `pyWords` below always runs it to completion. -/
def pyWordsAux : Nat → List Char → List (List Char)
  | 0, _ => []
  | _ + 1, [] => []
  | fuel + 1, c :: rest =>
    if pyIsSpace c then pyWordsAux fuel rest
    else
      (c :: rest.takeWhile (fun d => !pyIsSpace d)) ::
        pyWordsAux fuel (rest.dropWhile (fun d => !pyIsSpace d))

/-- Python `s.split()` with no argument: the maximal whitespace-free runs
of `s`, in order, with no empty words. -/
def pyWords (s : List Char) : List (List Char) :=
  pyWordsAux s.length s

/-- Python `sep.join(ws)`. -/
def pyJoin (sep : List Char) : List (List Char) → List Char
  | [] => []
  | [w] => w
  | w :: ws => w ++ sep ++ pyJoin sep ws

/-- Translation of `ContentExtractor.clean_content` (src/utils/extractor.py, lines 43-54):
`' '.join(content.split())`, then `replace('\n', ' ')`, then
`replace('\t', ' ')`, then `[:50000]`; empty input short-circuits to `""`. -/
def clean_content (content : List Char) : List Char :=
  if content = [] then []
  else
    let c1 := pyJoin [' '] (pyWords content)
    let c2 := c1.map (fun ch => if ch = '\n' then ' ' else ch)
    let c3 := c2.map (fun ch => if ch = '\t' then ' ' else ch)
    c3.take 50000

/-- Characters allowed in a well-formed host name. -/
def isHostChar (c : Char) : Bool :=
  c.isAlphanum || c = '.' || c = '-'

/-- The host part of a URL remainder (everything before the first `/`)
must be non-empty and made of host characters. -/
def hostOk (rest : List Char) : Bool :=
  let host := rest.takeWhile (fun c => !(c = '/'))
  !host.isEmpty && host.all isHostChar

def httpScheme : List Char := ['h', 't', 't', 'p', ':', '/', '/']

def httpsScheme : List Char := ['h', 't', 't', 'p', 's', ':', '/', '/']

/-- Modelled from the spec: URL validation in the repository is delegated to
the third-party `validators.url` library (src/utils/extractor.py, line 14),
whose code is not part of this repository.  Following §4.1 of the spec, a
candidate is accepted exactly when it is a syntactically valid absolute
HTTP/HTTPS URL: an `http://` or `https://` scheme followed by a non-empty
well-formed host. -/
def is_valid (s : List Char) : Bool :=
  if s.take 7 = httpScheme then hostOk (s.drop 7)
  else if s.take 8 = httpsScheme then hostOk (s.drop 8)
  else false

example : pyWords (' ' :: 'a' :: 'b' :: ' ' :: ' ' :: 'c' :: []) =
    [['a', 'b'], ['c']] := by decide

example : clean_content ('a' :: ' ' :: ' ' :: 'b' :: []) = ['a', ' ', 'b'] := by
  decide

example : is_valid ("http://a.example/x".toList) = true := by decide
example : is_valid ("ftp://x".toList) = false := by decide
example : is_valid ("javascript:".toList) = false := by decide
example : is_valid ([] : List Char) = false := by decide

/-- Outcome of one call into a Python library: either a value or a raised
exception. -/
inductive PyResult (α : Type) where
  | exn : PyResult α
  | ok : α → PyResult α
deriving DecidableEq

/-- The external world as seen by `ContentExtractor.extract`: the network
and third-party library behaviour on each input.  `fetchUrl` is
`trafilatura.fetch_url` (`ok none` models a falsy download), `trafExtract`
is `trafilatura.extract` on the downloaded page, `httpGet` is
`requests.get` + `raise_for_status` (`exn` covers timeouts, transport
errors and non-2xx statuses), and `soupTexts` is the BeautifulSoup stage:
the stripped texts of the `p`/`article` elements after removing
`script`/`style`/`nav`/`footer`/`header`. -/
structure Web where
  fetchUrl : List Char → PyResult (Option (List Char))
  trafExtract : List Char → PyResult (Option (List Char))
  httpGet : List Char → PyResult (List Char)
  soupTexts : List Char → PyResult (List (List Char))

/-- The BeautifulSoup fallback of `ContentExtractor.extract`
(src/utils/extractor.py, lines 26-37), together with the running count of
network requests attempted:
`' '.join([p.get_text().strip() for p in soup.find_all(['p', 'article'])])`
followed by `.strip()`. -/
def fallbackAux (web : Web) (url : List Char) (n : Nat) :
    PyResult (List Char) × Nat :=
  match web.httpGet url with
  | PyResult.exn => (PyResult.exn, n + 1)
  | PyResult.ok body =>
    match web.soupTexts body with
    | PyResult.exn => (PyResult.exn, n + 1)
    | PyResult.ok texts =>
      (PyResult.ok (pyStrip (pyJoin [' '] (texts.map pyStrip))), n + 1)

/-- The `try` body of `ContentExtractor.extract` (src/utils/extractor.py,
lines 17-37), paired with the number of network requests attempted.
Trafilatura first; any falsy download or falsy extraction falls through to
the BeautifulSoup fallback; a raised exception aborts the body. -/
def extractAux (web : Web) (url : List Char) : PyResult (List Char) × Nat :=
  match web.fetchUrl url with
  | PyResult.exn => (PyResult.exn, 1)
  | PyResult.ok none => fallbackAux web url 1
  | PyResult.ok (some d) =>
    if d = [] then fallbackAux web url 1
    else
      match web.trafExtract d with
      | PyResult.exn => (PyResult.exn, 1)
      | PyResult.ok none => fallbackAux web url 1
      | PyResult.ok (some content) =>
        if content = [] then fallbackAux web url 1
        else (PyResult.ok (pyStrip content), 1)

/-- Translation of `ContentExtractor.extract` (src/utils/extractor.py, lines 12-41):
reject invalid URLs up front, run the try body, and turn any exception
into the empty string. -/
def extract (web : Web) (url : List Char) : List Char :=
  if is_valid url = false then []
  else
    match (extractAux web url).1 with
    | PyResult.exn => []
    | PyResult.ok s => s

/-- Number of network requests `extract` attempts on `url`. -/
def extractNetCalls (web : Web) (url : List Char) : Nat :=
  if is_valid url = false then 0 else (extractAux web url).2

/-- The report-generation loop of `search_page` (src/app.py, lines 75-78):
`contents = []` then `contents.append(extractor.extract(url))` for each
selected URL in order.  The extraction function is a parameter, as in the
source it closes over the ambient network state. -/
def build_corpus (extract_fn : List Char → List Char)
    (selected_urls : List (List Char)) : List (List Char) :=
  selected_urls.foldl (fun contents url => contents ++ [extract_fn url]) []

/-- One raw item of the provider's `items` array; per §6 of the spec every
field is optional. -/
structure RawItem where
  title : Option (List Char)
  link : Option (List Char)
  snippet : Option (List Char)
deriving DecidableEq

/-- A search result as built by `GoogleSearch.search`. -/
structure SearchResult where
  title : List Char
  url : List Char
  snippet : List Char
deriving DecidableEq

/-- The dictionary built for each item (src/utils/search.py, lines 46-50):
`item.get('title', '')`, `item.get('link', '')`, `item.get('snippet', '')`. -/
def toResult (item : RawItem) : SearchResult :=
  ⟨item.title.getD [], item.link.getD [], item.snippet.getD []⟩

/-- The provider's answer to one paginated request: a raised
`requests.RequestException`, a JSON body with no `items` key, or an
`items` array. -/
inductive PageResp where
  | err : PageResp
  | noItems : PageResp
  | items : List RawItem → PageResp

/-- Python `range(start, stop, step)` over naturals. -/
def pyRange (start stop step : Nat) : List Nat :=
  List.range' start ((stop - start + step - 1) / step) step

/-- The pagination loop of `GoogleSearch.search` (src/utils/search.py,
lines 37-54), instrumented with the list of start offsets actually
requested.  A raised exception is caught outside the loop and returns the
accumulated results; a missing `items` key breaks; once
`len(results) >= max_results` the list is truncated to `max_results` and
the loop breaks. -/
def searchAux (provider : Nat → PageResp) (mr : Nat) :
    List Nat → List SearchResult → List Nat × List SearchResult
  | [], acc => ([], acc)
  | s :: rest, acc =>
    match provider s with
    | PageResp.err => ([s], acc)
    | PageResp.noItems => ([s], acc)
    | PageResp.items l =>
      let acc2 := acc ++ l.map toResult
      if mr ≤ acc2.length then ([s], acc2.take mr)
      else
        let pr := searchAux provider mr rest acc2
        (s :: pr.1, pr.2)

/-- Translation of `GoogleSearch.search` (src/utils/search.py, lines 23-59) over an
abstract provider: the offsets are `range(1, max_results + 1, 10)`; the
first component records the requests issued, the second the returned
results. -/
def search (provider : Nat → PageResp) (max_results : Nat) :
    List Nat × List SearchResult :=
  searchAux provider max_results (pyRange 1 (max_results + 1) 10) []

example : pyRange 1 26 10 = [1, 11, 21] := by decide
example : pyRange 1 11 10 = [1] := by decide
example : pyRange 1 1 10 = [] := by decide

/-- A JSON string literal for a plain printable string. -/
def jsonQuote (s : List Char) : List Char := '"' :: (s ++ ['"'])

/-- Model of `json.dumps` on a list of strings (src/utils/database.py, line 32),
modelled for strings of printable characters that need no escaping: the
elements are double-quoted and joined with `", "` inside brackets. -/
def jsonDumpsList (ss : List (List Char)) : List Char :=
  '[' :: (pyJoin [',', ' '] (ss.map jsonQuote) ++ [']'])

/-- Reads one string literal after its opening double quote; returns the
contents and the rest of the input after the closing quote. -/
def pyEvalStrAux : List Char → Option (List Char × List Char)
  | [] => none
  | c :: rest =>
    if c = '"' then some ([], rest)
    else Option.map (fun p => (c :: p.1, p.2)) (pyEvalStrAux rest)

/-- Reads the comma-separated string literals of a non-empty Python list
literal, up to and including the closing bracket. -/
def pyEvalItems : Nat → List Char → Option (List (List Char))
  | 0, _ => none
  | fuel + 1, '"' :: rest =>
    match pyEvalStrAux rest with
    | none => none
    | some (s, r) =>
      match r with
      | [']'] => some [s]
      | ',' :: ' ' :: r2 => Option.map (fun ss => s :: ss) (pyEvalItems fuel r2)
      | _ => none
  | _ + 1, _ => none

/-- The read path of `knowledge_base_page` (src/app.py, line 139): the
stored sources string is handed to the generic expression evaluator
`eval`.  This models what `eval` computes on the strings the repository
actually stores — Python list literals of plain string literals; anything
else is out of the modelled fragment (`none`). -/
def pyEvalList (l : List Char) : Option (List (List Char)) :=
  match l with
  | '[' :: rest =>
    if rest = [']'] then some [] else pyEvalItems rest.length rest
  | _ => none

example : pyEvalList (jsonDumpsList []) = some [] := by decide
example : pyEvalList (jsonDumpsList [['a'], ['b', 'c']]) =
    some [['a'], ['b', 'c']] := by decide

/-- One row of the `reports` table; `sources` holds the serialized URL
list. -/
structure ReportRow where
  query : List Char
  content : List Char
  sources : List Char
deriving DecidableEq

/-- The session state seen by `Database`: rows already committed and rows
added to the session but not yet committed. -/
structure DBState where
  committed : List ReportRow
  pending : List ReportRow
deriving DecidableEq

/-- Translation of `Database.save_report` (src/utils/database.py, lines 25-39): build the
row with `json.dumps(sources)`, `session.add` it, then `session.commit`.
`commitOk` is the environment's verdict on the commit; when it fails the
exception handler calls `session.rollback()` (pending work is discarded)
and returns `False`. -/
def save_report (commitOk : Bool) (st : DBState)
    (query content : List Char) (sources : List (List Char)) :
    Bool × DBState :=
  let row : ReportRow := ⟨query, content, jsonDumpsList sources⟩
  let st1 : DBState := ⟨st.committed, st.pending ++ [row]⟩
  if commitOk then (true, ⟨st1.committed ++ st1.pending, []⟩)
  else (false, ⟨st.committed, []⟩)

/-- A network environment in which every stage errors; used to exercise
the invalid-URL and exception paths of `extract`. -/
def webStub : Web :=
  ⟨fun _ => PyResult.exn, fun _ => PyResult.exn,
    fun _ => PyResult.exn, fun _ => PyResult.exn⟩

/-- A network environment whose page yields a 50,001-character extraction;
used to exercise the report-generation loop of `search_page`. -/
def webLong : Web :=
  ⟨fun _ => PyResult.ok (some ['x']),
    fun _ => PyResult.ok (some (List.replicate 50001 'a')),
    fun _ => PyResult.exn, fun _ => PyResult.exn⟩

/-- A provider item carrying no `link` field. -/
def linklessItem : RawItem := ⟨some ['t'], none, some ['s']⟩

/-- A provider whose every page consists of the single link-less item. -/
def linklessProvider : Nat → PageResp := fun _ => PageResp.items [linklessItem]

/-- An ordinary provider item with all three fields present. -/
def fullItem : RawItem := ⟨some ['t'], some ['u'], some ['s']⟩

/-- A provider that always supplies a full page of ten items. -/
def fullProvider : Nat → PageResp :=
  fun _ => PageResp.items (List.replicate 10 fullItem)

/-! ## List helpers -/

theorem dropWhile_length_le (p : Char → Bool) (l : List Char) :
    (l.dropWhile p).length ≤ l.length := by
  induction l with
  | nil => simp
  | cons a l ih =>
    rw [List.dropWhile_cons]
    split
    · exact Nat.le_trans ih (Nat.le_succ _)
    · exact Nat.le_refl _

theorem map_id_of_mem {α : Type} {f : α → α} {l : List α}
    (h : ∀ a ∈ l, f a = a) : l.map f = l := by
  induction l with
  | nil => rfl
  | cons a l ih =>
    rw [List.map_cons, h a (List.mem_cons_self a l),
      ih (fun b hb => h b (List.mem_cons_of_mem a hb))]

/-! ## Properties of the Python word splitter -/

theorem pyWordsAux_nil (fuel : Nat) : pyWordsAux fuel [] = [] := by
  cases fuel <;> rfl

theorem pyWordsAux_congr :
    ∀ f1 f2 : Nat, ∀ l : List Char, l.length ≤ f1 → l.length ≤ f2 →
      pyWordsAux f1 l = pyWordsAux f2 l := by
  intro f1
  induction f1 with
  | zero =>
    intro f2 l h1 _
    have : l = [] := List.length_eq_zero.mp (Nat.le_zero.mp h1)
    rw [this, pyWordsAux_nil, pyWordsAux_nil]
  | succ f1 ih =>
    intro f2 l h1 h2
    cases l with
    | nil => rw [pyWordsAux_nil, pyWordsAux_nil]
    | cons c rest =>
      cases f2 with
      | zero => exact absurd h2 (by simp)
      | succ f2 =>
        simp only [pyWordsAux]
        have hr1 : rest.length ≤ f1 := Nat.le_of_succ_le_succ h1
        have hr2 : rest.length ≤ f2 := Nat.le_of_succ_le_succ h2
        split
        · exact ih f2 rest hr1 hr2
        · rw [ih f2 (rest.dropWhile (fun d => !pyIsSpace d))
            (Nat.le_trans (dropWhile_length_le _ _) hr1)
            (Nat.le_trans (dropWhile_length_le _ _) hr2)]

theorem pyWords_cons_space (c : Char) (rest : List Char)
    (h : pyIsSpace c = true) : pyWords (c :: rest) = pyWords rest := by
  show pyWordsAux (rest.length + 1) (c :: rest) = pyWordsAux rest.length rest
  simp only [pyWordsAux, h, if_true]

theorem pyWords_cons_nonspace (c : Char) (rest : List Char)
    (h : pyIsSpace c = false) :
    pyWords (c :: rest) =
      (c :: rest.takeWhile (fun d => !pyIsSpace d)) ::
        pyWords (rest.dropWhile (fun d => !pyIsSpace d)) := by
  show pyWordsAux (rest.length + 1) (c :: rest) = _
  simp only [pyWordsAux, h, if_false, Bool.false_eq_true]
  rw [pyWordsAux_congr rest.length (rest.dropWhile (fun d => !pyIsSpace d)).length
    (rest.dropWhile (fun d => !pyIsSpace d))
    (dropWhile_length_le _ _) (Nat.le_refl _)]
  rfl

theorem pyWordsAux_sound :
    ∀ fuel : Nat, ∀ s : List Char,
      ∀ w ∈ pyWordsAux fuel s, w ≠ [] ∧ ∀ c ∈ w, pyIsSpace c = false := by
  intro fuel
  induction fuel with
  | zero => intro s w hw; exact absurd hw (by simp [pyWordsAux])
  | succ fuel ih =>
    intro s w hw
    cases s with
    | nil => exact absurd hw (by simp [pyWordsAux])
    | cons c rest =>
      simp only [pyWordsAux] at hw
      by_cases hc : pyIsSpace c = true
      · rw [if_pos hc] at hw
        exact ih rest w hw
      · rw [if_neg hc] at hw
        rcases List.mem_cons.mp hw with h | h
        · subst h
          refine ⟨by simp, ?_⟩
          intro d hd
          rcases List.mem_cons.mp hd with h | h
          · subst h; exact Bool.eq_false_iff.mpr hc
          · have := List.mem_takeWhile_imp h
            simpa using this
        · exact ih _ w h

theorem pyWords_sound (s : List Char) :
    ∀ w ∈ pyWords s, w ≠ [] ∧ ∀ c ∈ w, pyIsSpace c = false :=
  pyWordsAux_sound s.length s

/-- Splitting a single non-empty whitespace-free word returns just that
word. -/
theorem pyWords_single (w : List Char) (hne : w ≠ [])
    (hw : ∀ c ∈ w, pyIsSpace c = false) : pyWords w = [w] := by
  cases w with
  | nil => exact absurd rfl hne
  | cons c rest =>
    rw [pyWords_cons_nonspace c rest (hw c (List.mem_cons_self c rest))]
    have hall : ∀ d ∈ rest, (fun d => !pyIsSpace d) d = true := by
      intro d hd
      simp [hw d (List.mem_cons_of_mem c hd)]
    rw [List.takeWhile_eq_self_iff.mpr hall ]
    rw [List.dropWhile_eq_nil_iff.mpr (fun d hd => hall d hd), pyWords]
    rfl

/-- Splitting the single-space join of non-empty whitespace-free words
recovers exactly the words. -/
theorem pyWords_pyJoin :
    ∀ ws : List (List Char),
      (∀ w ∈ ws, w ≠ [] ∧ ∀ c ∈ w, pyIsSpace c = false) →
        pyWords (pyJoin [' '] ws) = ws := by
  intro ws
  induction ws with
  | nil => intro _; rfl
  | cons w ws ih =>
    intro h
    obtain ⟨hne, hw⟩ := h w (List.mem_cons_self w ws)
    cases ws with
    | nil => exact pyWords_single w hne hw
    | cons w2 ws2 =>
      have hjoin : pyJoin [' '] (w :: w2 :: ws2) =
          w ++ [' '] ++ pyJoin [' '] (w2 :: ws2) := rfl
      rw [hjoin]
      cases w with
      | nil => exact absurd rfl hne
      | cons c restw =>
        have hc : pyIsSpace c = false := hw c (List.mem_cons_self c restw)
        have hrest : ∀ d ∈ restw, (fun d => !pyIsSpace d) d = true := by
          intro d hd
          simp [hw d (List.mem_cons_of_mem c hd)]
        rw [List.cons_append, List.cons_append, pyWords_cons_nonspace c _ hc]
        rw [List.append_assoc, List.takeWhile_append_of_pos hrest,
          List.dropWhile_append_of_pos hrest]
        have hsp : (fun d => !pyIsSpace d) ' ' = false := by decide
        rw [List.singleton_append]
        rw [List.takeWhile_cons_of_neg (by simp [pyIsSpace]),
          List.dropWhile_cons_of_neg (by simp [pyIsSpace]), List.append_nil]
        rw [pyWords_cons_space ' ' _ (by decide)]
        rw [ih (fun v hv => h v (List.mem_cons_of_mem _ hv))]

/-- Every character of a single-space join of whitespace-free words is a
plain space or a non-whitespace character. -/
theorem pyJoin_chars :
    ∀ ws : List (List Char),
      (∀ w ∈ ws, ∀ c ∈ w, pyIsSpace c = false) →
        ∀ c ∈ pyJoin [' '] ws, c = ' ' ∨ pyIsSpace c = false := by
  intro ws
  induction ws with
  | nil => intro _ c hc; exact absurd hc (by simp [pyJoin])
  | cons w ws ih =>
    intro h c hc
    cases ws with
    | nil => exact Or.inr (h w (List.mem_cons_self w []) c hc)
    | cons w2 ws2 =>
      have hjoin : pyJoin [' '] (w :: w2 :: ws2) =
          w ++ [' '] ++ pyJoin [' '] (w2 :: ws2) := rfl
      rw [hjoin] at hc
      rcases List.mem_append.mp hc with hc1 | hc1
      · rcases List.mem_append.mp hc1 with hc2 | hc2
        · exact Or.inr (h w (List.mem_cons_self w _) c hc2)
        · left; simpa using hc2
      · exact ih (fun v hv => h v (List.mem_cons_of_mem w hv)) c hc1

/-! ## Properties of the content normalizer -/

/-- When the collapsed text fits under the cap, `clean_content` is exactly
the single-space join of the words. -/
theorem clean_content_eq_join (x : List Char) (hx : x ≠ [])
    (hlen : (pyJoin [' '] (pyWords x)).length ≤ 50000) :
    clean_content x = pyJoin [' '] (pyWords x) := by
  have hchars := pyJoin_chars (pyWords x) (fun w hw => (pyWords_sound x w hw).2)
  have h1 : (pyJoin [' '] (pyWords x)).map
      (fun ch => if ch = '\n' then ' ' else ch) = pyJoin [' '] (pyWords x) := by
    refine map_id_of_mem ?_
    intro c hc
    have hne : c ≠ '\n' := by
      rcases hchars c hc with h | h
      · subst h; decide
      · intro he; subst he; exact absurd h (by decide)
    simp [hne]
  have h2 : (pyJoin [' '] (pyWords x)).map
      (fun ch => if ch = '\t' then ' ' else ch) = pyJoin [' '] (pyWords x) := by
    refine map_id_of_mem ?_
    intro c hc
    have hne : c ≠ '\t' := by
      rcases hchars c hc with h | h
      · subst h; decide
      · intro he; subst he; exact absurd h (by decide)
    simp [hne]
  simp only [clean_content, if_neg hx]
  rw [h1, h2, List.take_of_length_le hlen]

/-- Claim C4 (amended): the normalizer is idempotent on every input whose
whitespace-collapsed form fits within the 50,000-character cap; only
truncation at the cap (which can leave a trailing space that a second
application removes) breaks idempotence. -/
theorem clean_content_idempotent_under_cap :
    ∀ x : List Char, (pyJoin [' '] (pyWords x)).length ≤ 50000 →
      clean_content (clean_content x) = clean_content x := by
  intro x hlen
  by_cases hx : x = []
  · subst hx; rfl
  · rw [clean_content_eq_join x hx hlen]
    by_cases hj : pyJoin [' '] (pyWords x) = []
    · rw [hj]; rfl
    · have hwords : pyWords (pyJoin [' '] (pyWords x)) = pyWords x :=
        pyWords_pyJoin (pyWords x) (pyWords_sound x)
      have hlen2 :
          (pyJoin [' '] (pyWords (pyJoin [' '] (pyWords x)))).length ≤ 50000 := by
        rw [hwords]; exact hlen
      rw [clean_content_eq_join _ hj hlen2, hwords]

/-- The two character-replacement passes of `clean_content` do nothing on
text free of newlines and tabs. -/
theorem clean_maps_id (j : List Char) (h : ∀ c ∈ j, c ≠ '\n' ∧ c ≠ '\t') :
    ((j.map (fun ch => if ch = '\n' then ' ' else ch)).map
      (fun ch => if ch = '\t' then ' ' else ch)) = j := by
  have h1 : j.map (fun ch => if ch = '\n' then ' ' else ch) = j :=
    map_id_of_mem (fun c hc => by simp [(h c hc).1])
  rw [h1]
  exact map_id_of_mem (fun c hc => by simp [(h c hc).2])

/-- Word splitting peels one leading all-`'a'` run. -/
theorem pyWords_rep_append (n : Nat) (t : List Char) :
    pyWords (List.replicate (n + 1) 'a' ++ t) =
      (List.replicate (n + 1) 'a' ++ t.takeWhile (fun d => !pyIsSpace d)) ::
        pyWords (t.dropWhile (fun d => !pyIsSpace d)) := by
  have hrep : ∀ d ∈ List.replicate n 'a', (fun d => !pyIsSpace d) d = true := by
    intro d hd
    rw [List.eq_of_mem_replicate hd]; decide
  conv_lhs => rw [List.replicate_succ, List.cons_append]
  rw [pyWords_cons_nonspace 'a' _ (by decide),
    List.takeWhile_append_of_pos hrep, List.dropWhile_append_of_pos hrep]
  simp [List.replicate_succ]

/-- Evaluating `clean_content` on 49,999 `'a'`s, a space and a `'b'`: the cap cuts
right after the space, so the result ends in a blank. -/
theorem clean_content_x0 :
    clean_content (List.replicate 49999 'a' ++ [' ', 'b']) =
      List.replicate 49999 'a' ++ [' '] := by
  have hne : (List.replicate 49999 'a' ++ [' ', 'b'] : List Char) ≠ [] := by
    simp [-List.reduceReplicate]
  have h49 : (49999 : Nat) = 49998 + 1 := by norm_num
  have hw : pyWords (List.replicate 49999 'a' ++ [' ', 'b']) =
      [List.replicate 49999 'a', ['b']] := by
    rw [h49, pyWords_rep_append]
    have ht : List.takeWhile (fun d => !pyIsSpace d) ([' ', 'b'] : List Char)
        = [] := by decide
    have hd : List.dropWhile (fun d => !pyIsSpace d) ([' ', 'b'] : List Char)
        = [' ', 'b'] := by decide
    have hp : pyWords [' ', 'b'] = [['b']] := by decide
    rw [ht, hd, hp, List.append_nil]
  simp only [clean_content, if_neg hne]
  rw [hw]
  have hjoin : pyJoin [' '] [List.replicate 49999 'a', ['b']] =
      (List.replicate 49999 'a' ++ [' ']) ++ ['b'] := by
    simp [pyJoin, List.append_assoc, -List.reduceReplicate]
  rw [hjoin, clean_maps_id]
  · have hl : (List.replicate 49999 'a' ++ ([' '] : List Char)).length
        = 50000 := by
      rw [List.length_append, List.length_replicate]
      norm_num
    rw [List.take_left' hl]
  · intro c hc
    rcases List.mem_append.mp hc with hc1 | hc1
    · rcases List.mem_append.mp hc1 with hc2 | hc2
      · rw [List.eq_of_mem_replicate hc2]; exact ⟨by decide, by decide⟩
      · have hc3 : c = ' ' := by simpa using hc2
        subst hc3; exact ⟨by decide, by decide⟩
    · have hc3 : c = 'b' := by simpa using hc1
      subst hc3; exact ⟨by decide, by decide⟩

/-- Evaluating `clean_content` on 49,999 `'a'`s followed by a space: the trailing
blank vanishes. -/
theorem clean_content_y0 :
    clean_content (List.replicate 49999 'a' ++ [' ']) =
      List.replicate 49999 'a' := by
  have hne : (List.replicate 49999 'a' ++ [' '] : List Char) ≠ [] := by
    simp [-List.reduceReplicate]
  have h49 : (49999 : Nat) = 49998 + 1 := by norm_num
  have hw : pyWords (List.replicate 49999 'a' ++ [' ']) =
      [List.replicate 49999 'a'] := by
    rw [h49, pyWords_rep_append]
    have ht : List.takeWhile (fun d => !pyIsSpace d) ([' '] : List Char)
        = [] := by decide
    have hd : List.dropWhile (fun d => !pyIsSpace d) ([' '] : List Char)
        = [' '] := by decide
    have hp : pyWords [' '] = [] := by decide
    rw [ht, hd, hp, List.append_nil]
  simp only [clean_content, if_neg hne]
  rw [hw]
  have hjoin : pyJoin [' '] [List.replicate 49999 'a'] =
      List.replicate 49999 'a' := rfl
  rw [hjoin, clean_maps_id]
  · exact List.take_of_length_le (by simp [-List.reduceReplicate])
  · intro c hc
    rw [List.eq_of_mem_replicate hc]
    exact ⟨by decide, by decide⟩

/-- Claim C4: refuted as stated.  On 49,999 `'a'`s, a space and a `'b'`
the cap truncates the collapsed text right after the space, and the second
application strips that trailing space, so
`clean_content (clean_content x) ≠ clean_content x`. -/
theorem clean_content_not_idempotent_at_cap :
    clean_content (clean_content (List.replicate 49999 'a' ++ [' ', 'b'])) ≠
      clean_content (List.replicate 49999 'a' ++ [' ', 'b']) := by
  rw [clean_content_x0, clean_content_y0]
  intro h
  have hlen := congrArg List.length h
  rw [List.length_append, List.length_replicate] at hlen
  simp at hlen

theorem clean_content_idempotent_under_cap_witness :
    (pyJoin [' '] (pyWords ('a' :: ' ' :: ' ' :: 'b' :: []))).length ≤ 50000 ∧
      clean_content (clean_content ('a' :: ' ' :: ' ' :: 'b' :: [])) =
        clean_content ('a' :: ' ' :: ' ' :: 'b' :: []) :=
  ⟨by decide, clean_content_idempotent_under_cap _ (by decide)⟩

/-- Stripping an all-`'a'` text is the identity. -/
theorem pyStrip_replicate (n : Nat) :
    pyStrip (List.replicate n 'a') = List.replicate n 'a' := by
  have ha : pyIsSpace 'a' = false := by decide
  simp [pyStrip, List.dropWhile_replicate, ha, -List.reduceReplicate]

/-- The normalizer truncates 50,001 `'a'`s to 50,000. -/
theorem clean_content_replicate_50001 :
    clean_content (List.replicate 50001 'a') = List.replicate 50000 'a' := by
  have hne : (List.replicate 50001 'a' : List Char) ≠ [] := by
    simp [-List.reduceReplicate]
  have hw : pyWords (List.replicate 50001 'a') = [List.replicate 50001 'a'] :=
    pyWords_single _ hne
      (fun c hc => by rw [List.eq_of_mem_replicate hc]; decide)
  simp only [clean_content, if_neg hne]
  rw [hw]
  have hjoin : pyJoin [' '] [List.replicate 50001 'a'] =
      List.replicate 50001 'a' := rfl
  rw [hjoin, clean_maps_id]
  · rw [List.take_replicate]
    norm_num
  · intro c hc
    rw [List.eq_of_mem_replicate hc]
    exact ⟨by decide, by decide⟩

/-- The corpus loop of `search_page` is exactly a map of the extraction
function over the selection. -/
theorem build_corpus_eq_map (f : List Char → List Char)
    (urls : List (List Char)) : build_corpus f urls = urls.map f := by
  have h : ∀ us acc : List (List Char),
      us.foldl (fun contents url => contents ++ [f url]) acc =
        acc ++ us.map f := by
    intro us
    induction us with
    | nil => intro acc; simp
    | cons u us ih =>
      intro acc
      rw [List.foldl_cons, ih, List.map_cons, List.append_assoc,
        List.singleton_append]
  simpa using h urls []

/-- In the `webLong` environment, extraction of any valid URL yields the
50,001-character trafilatura text, stripped (a no-op). -/
theorem extract_webLong (url : List Char) (hv : is_valid url = true) :
    extract webLong url = List.replicate 50001 'a' := by
  have hx : (['x'] : List Char) ≠ [] := by decide
  have hrep : (List.replicate 50001 'a' : List Char) ≠ [] := by
    simp [-List.reduceReplicate]
  simp only [extract, hv, Bool.true_eq_false, if_false, extractAux, webLong,
    if_neg hx, if_neg hrep]
  exact pyStrip_replicate 50001

/-- Claim C1: refuted as stated — a code bug.  The generation loop of
`search_page` appends `extractor.extract(url)` directly and never invokes
`ContentExtractor.clean_content`, so with a page whose extracted text is
50,001 characters the entry handed to the report generator is unnormalized
and exceeds the 50,000-character cap. -/
theorem pipeline_skips_normalizer :
    build_corpus (extract webLong) [("http://a.example/x".toList)] =
        [List.replicate 50001 'a'] ∧
      50000 < (List.replicate 50001 'a' : List Char).length ∧
      clean_content (List.replicate 50001 'a') ≠ List.replicate 50001 'a' := by
  refine ⟨?_, ?_, ?_⟩
  · rw [build_corpus_eq_map, List.map_cons, List.map_nil,
      extract_webLong _ (by decide)]
  · rw [List.length_replicate]
    norm_num
  · rw [clean_content_replicate_50001]
    intro h
    have hlen := congrArg List.length h
    rw [List.length_replicate, List.length_replicate] at hlen
    omega

/-- Claim C9: the corpus-building loop preserves selection order and
positional count — one entry per selected URL, in order, each the
extraction result for that URL (failures appear as their empty strings,
never skipped). -/
theorem build_corpus_preserves_selection :
    ∀ (web : Web) (urls : List (List Char)),
      build_corpus (extract web) urls = urls.map (extract web) ∧
        (build_corpus (extract web) urls).length = urls.length := by
  intro web urls
  have h := build_corpus_eq_map (extract web) urls
  exact ⟨h, by rw [h, List.length_map]⟩

/-- Claim C8: `extract` is total; an invalid URL yields the empty string
with zero network requests attempted, and an exception at any stage
(trafilatura fetch, or the fallback GET after a falsy download) is caught
and converted to the empty string. -/
theorem extract_total_spec :
    (∀ (web : Web) (url : List Char), is_valid url = false →
        extract web url = [] ∧ extractNetCalls web url = 0) ∧
      (∀ (web : Web) (url : List Char), (extractAux web url).1 = PyResult.exn →
        extract web url = []) ∧
      (∀ (web : Web) (url : List Char), web.fetchUrl url = PyResult.exn →
        extract web url = []) ∧
      ∀ (web : Web) (url : List Char), web.fetchUrl url = PyResult.ok none →
        web.httpGet url = PyResult.exn → extract web url = [] := by
  refine ⟨?_, ?_, ?_, ?_⟩
  · intro web url h
    exact ⟨by simp [extract, h], by simp [extractNetCalls, h]⟩
  · intro web url h
    by_cases hv : is_valid url = false
    · simp [extract, hv]
    · simp [extract, hv, h]
  · intro web url h
    by_cases hv : is_valid url = false
    · simp [extract, hv]
    · simp [extract, hv, extractAux, h]
  · intro web url h1 h2
    by_cases hv : is_valid url = false
    · simp [extract, hv]
    · simp [extract, hv, extractAux, h1, fallbackAux, h2]

theorem extract_total_spec_witness :
    (extract webStub ("not a url".toList) = [] ∧
        extractNetCalls webStub ("not a url".toList) = 0) ∧
      extract webStub ("http://a.example/x".toList) = [] :=
  ⟨extract_total_spec.1 webStub ("not a url".toList) (by decide),
    extract_total_spec.2.2.1 webStub ("http://a.example/x".toList) rfl⟩

/-! ## Properties of the search client -/

/-- A raised request exception ends the pagination at once: nothing past
the failing offset is requested and the accumulated results are returned. -/
theorem searchAux_err (p : Nat → PageResp) (mr s : Nat) (rest : List Nat)
    (acc : List SearchResult) (h : p s = PageResp.err) :
    searchAux p mr (s :: rest) acc = ([s], acc) := by
  simp [searchAux, h]

/-- Continuing step: a page of items that leaves the total short of
`max_results` extends the accumulator and recurses. -/
theorem searchAux_items_continue (p : Nat → PageResp) (mr s : Nat)
    (rest : List Nat) (acc : List SearchResult) (l : List RawItem)
    (h : p s = PageResp.items l)
    (hlt : (acc ++ l.map toResult).length < mr) :
    searchAux p mr (s :: rest) acc =
      (s :: (searchAux p mr rest (acc ++ l.map toResult)).1,
        (searchAux p mr rest (acc ++ l.map toResult)).2) := by
  simp only [searchAux, h]
  rw [if_neg (by omega)]

/-- Stopping step: a page of items that reaches `max_results` truncates
and stops. -/
theorem searchAux_items_stop (p : Nat → PageResp) (mr s : Nat)
    (rest : List Nat) (acc : List SearchResult) (l : List RawItem)
    (h : p s = PageResp.items l)
    (hge : mr ≤ (acc ++ l.map toResult).length) :
    searchAux p mr (s :: rest) acc =
      ([s], (acc ++ l.map toResult).take mr) := by
  simp only [searchAux, h]
  rw [if_pos hge]

/-- The pagination loop never accumulates beyond `max_results`. -/
theorem searchAux_length_le (p : Nat → PageResp) (mr : Nat) :
    ∀ (starts : List Nat) (acc : List SearchResult), acc.length ≤ mr →
      ((searchAux p mr starts acc).2).length ≤ mr := by
  intro starts
  induction starts with
  | nil => intro acc h; simpa [searchAux] using h
  | cons s rest ih =>
    intro acc h
    cases hp : p s with
    | err => rw [searchAux_err p mr s rest acc hp]; exact h
    | noItems => simp only [searchAux, hp]; exact h
    | items l =>
      by_cases hge : mr ≤ (acc ++ l.map toResult).length
      · rw [searchAux_items_stop p mr s rest acc l hp hge]
        simp
      · rw [searchAux_items_continue p mr s rest acc l hp (by omega)]
        exact ih _ (by omega)

/-- Every returned result is built from some item of some provider page. -/
theorem searchAux_mem (p : Nat → PageResp) (mr : Nat) :
    ∀ (starts : List Nat) (acc : List SearchResult) (r : SearchResult),
      r ∈ (searchAux p mr starts acc).2 →
        r ∈ acc ∨ ∃ s l item, p s = PageResp.items l ∧ item ∈ l ∧
          r = toResult item := by
  intro starts
  induction starts with
  | nil => intro acc r hr; left; simpa [searchAux] using hr
  | cons s rest ih =>
    intro acc r hr
    cases hp : p s with
    | err => rw [searchAux_err p mr s rest acc hp] at hr; exact Or.inl hr
    | noItems => simp only [searchAux, hp] at hr; exact Or.inl hr
    | items l =>
      by_cases hge : mr ≤ (acc ++ l.map toResult).length
      · rw [searchAux_items_stop p mr s rest acc l hp hge] at hr
        have hr2 : r ∈ acc ++ l.map toResult :=
          List.take_subset mr _ hr
        rcases List.mem_append.mp hr2 with h1 | h1
        · exact Or.inl h1
        · obtain ⟨item, hitem, heq⟩ := List.mem_map.mp h1
          exact Or.inr ⟨s, l, item, hp, hitem, heq.symm⟩
      · rw [searchAux_items_continue p mr s rest acc l hp (by omega)] at hr
        rcases ih _ r hr with h1 | h1
        · rcases List.mem_append.mp h1 with h2 | h2
          · exact Or.inl h2
          · obtain ⟨item, hitem, heq⟩ := List.mem_map.mp h2
            exact Or.inr ⟨s, l, item, hp, hitem, heq.symm⟩
        · exact Or.inr h1

/-- Claim C6: with `max_results = 25` and a provider that always supplies
a full page of ten items, the client issues exactly the three requests
with start offsets 1, 11, 21 and returns exactly 25 results; and for every
provider and every `max_results`, at most `max_results` results are
returned even when the last page overshoots. -/
theorem search_pagination_spec :
    (∀ provider : Nat → PageResp,
        (∀ s, ∃ l, provider s = PageResp.items l ∧ l.length = 10) →
          (search provider 25).1 = [1, 11, 21] ∧
            (search provider 25).2.length = 25) ∧
      ∀ (provider : Nat → PageResp) (mr : Nat),
        (search provider mr).2.length ≤ mr := by
  constructor
  · intro provider hfull
    obtain ⟨l1, h1, hl1⟩ := hfull 1
    obtain ⟨l2, h2, hl2⟩ := hfull 11
    obtain ⟨l3, h3, hl3⟩ := hfull 21
    have hrange : pyRange 1 (25 + 1) 10 = [1, 11, 21] := by decide
    have hL1 : (([] : List SearchResult) ++ l1.map toResult).length = 10 := by
      simp [hl1]
    have hL2 : ((([] : List SearchResult) ++ l1.map toResult) ++
        l2.map toResult).length = 20 := by simp [hl1, hl2]
    have hL3 : (((([] : List SearchResult) ++ l1.map toResult) ++
        l2.map toResult) ++ l3.map toResult).length = 30 := by
      simp [hl1, hl2, hl3]
    have e1 := searchAux_items_continue provider 25 1 [11, 21] [] l1 h1
      (by omega)
    have e2 := searchAux_items_continue provider 25 11 [21]
      ([] ++ l1.map toResult) l2 h2 (by omega)
    have e3 := searchAux_items_stop provider 25 21 []
      (([] ++ l1.map toResult) ++ l2.map toResult) l3 h3 (by omega)
    constructor
    · show (searchAux provider 25 (pyRange 1 (25 + 1) 10) []).1 = [1, 11, 21]
      rw [hrange, e1, e2, e3]
    · show (searchAux provider 25 (pyRange 1 (25 + 1) 10) []).2.length = 25
      rw [hrange, e1, e2, e3]
      simp only [List.length_take, hL3]
      omega
  · intro provider mr
    exact searchAux_length_le provider mr _ [] (Nat.zero_le mr)

theorem search_pagination_spec_witness :
    (search fullProvider 25).1 = [1, 11, 21] ∧
      (search fullProvider 25).2.length = 25 :=
  search_pagination_spec.1 fullProvider
    (fun _ => ⟨List.replicate 10 fullItem, rfl, by simp⟩)

/-- Claim C7: a transport or HTTP error terminates the pagination loop at
the failing request and the accumulated results are returned; in
particular a provider failing on the first request produces the empty
sequence, and no exception escapes (`search` is total). -/
theorem search_error_returns_accumulated :
    (∀ (provider : Nat → PageResp) (mr s : Nat) (rest : List Nat)
        (acc : List SearchResult), provider s = PageResp.err →
          searchAux provider mr (s :: rest) acc = ([s], acc)) ∧
      ∀ (provider : Nat → PageResp) (mr : Nat), 1 ≤ mr →
        provider 1 = PageResp.err → search provider mr = ([1], []) := by
  constructor
  · intro p mr s rest acc h
    exact searchAux_err p mr s rest acc h
  · intro p mr hmr h
    have hpos : 1 ≤ (mr + 1 - 1 + 10 - 1) / 10 := by
      rw [Nat.one_le_div_iff (by norm_num)]
      omega
    obtain ⟨n, hn⟩ : ∃ n, (mr + 1 - 1 + 10 - 1) / 10 = n + 1 :=
      ⟨(mr + 1 - 1 + 10 - 1) / 10 - 1, by omega⟩
    show searchAux p mr (pyRange 1 (mr + 1) 10) [] = ([1], [])
    rw [pyRange, hn, List.range'_succ]
    exact searchAux_err p mr 1 _ [] h

theorem search_error_returns_accumulated_witness :
    search (fun _ => PageResp.err) 25 = ([1], []) :=
  search_error_returns_accumulated.2 (fun _ => PageResp.err) 25
    (by norm_num) rfl

/-- Claim C2: refuted as stated.  A provider item with no `link` field is
not excluded: it is mapped to a result whose `url` is the empty string. -/
theorem search_keeps_linkless_item :
    linklessItem.link = none ∧
      (search linklessProvider 10).2 = [toResult linklessItem] ∧
      (toResult linklessItem).url = [] := by
  refine ⟨rfl, by decide, rfl⟩

/-- Claim C2 (amended): every result returned by the search client is the
field-defaulted image of some provider item — an item lacking `link` is
included with `url = ""` (the `item.get('link', '')` default), not
filtered out. -/
theorem search_results_from_items :
    (∀ item : RawItem, (toResult item).url = item.link.getD []) ∧
      ∀ (provider : Nat → PageResp) (mr : Nat) (r : SearchResult),
        r ∈ (search provider mr).2 →
          ∃ s l item, provider s = PageResp.items l ∧ item ∈ l ∧
            r = toResult item := by
  constructor
  · intro item; rfl
  · intro p mr r hr
    rcases searchAux_mem p mr _ [] r hr with h | h
    · exact absurd h (by simp)
    · exact h

theorem search_results_from_items_witness :
    ∃ s l item, linklessProvider s = PageResp.items l ∧ item ∈ l ∧
      toResult linklessItem = toResult item :=
  search_results_from_items.2 linklessProvider 10 (toResult linklessItem)
    (by decide)

/-! ## The URL validator -/

/-- Claim C5: the modelled validator accepts every well-formed
`http://host/path` URL and rejects the empty string, relative paths and
non-HTTP schemes. -/
theorem is_valid_spec :
    (∀ host path : List Char, host ≠ [] → host.all isHostChar = true →
        is_valid (httpScheme ++ (host ++ '/' :: path)) = true) ∧
      is_valid [] = false ∧
      is_valid ("ftp://x".toList) = false ∧
      is_valid ("javascript:".toList) = false ∧
      is_valid ("file:".toList) = false ∧
      is_valid ("not a url".toList) = false ∧
      is_valid ("docs/readme".toList) = false := by
  refine ⟨?_, by decide, by decide, by decide, by decide, by decide,
    by decide⟩
  intro host path hne hall
  have h7 : (httpScheme ++ (host ++ '/' :: path)).take 7 = httpScheme :=
    List.take_left' rfl
  have hd : (httpScheme ++ (host ++ '/' :: path)).drop 7 =
      host ++ '/' :: path := List.drop_left' rfl
  rw [is_valid, h7, if_pos rfl, hd]
  have hhost : ∀ a ∈ host, (fun c => !(c = '/')) a = true := by
    intro a ha
    have hA : isHostChar a = true := List.all_eq_true.mp hall a ha
    have hslash : ¬(a = '/') := by
      intro he; rw [he] at hA; exact absurd hA (by decide)
    simp [hslash]
  have ht : (host ++ '/' :: path).takeWhile (fun c => !(c = '/')) = host := by
    rw [List.takeWhile_append_of_pos hhost,
      List.takeWhile_cons_of_neg (by decide), List.append_nil]
  have hemp : host.isEmpty = false := by
    cases host with
    | nil => exact absurd rfl hne
    | cons a l => rfl
  simp only [hostOk, ht, hemp, hall]
  rfl

theorem is_valid_spec_witness :
    is_valid (httpScheme ++ (("a.example".toList) ++ '/' :: ("x".toList)))
      = true :=
  is_valid_spec.1 ("a.example".toList) ("x".toList) (by decide) (by decide)

/-! ## Serialization of the stored source list -/

/-- Reading a quote-free string literal consumes it up to the closing
quote. -/
theorem pyEvalStrAux_append (s r : List Char) (h : ∀ c ∈ s, ¬(c = '"')) :
    pyEvalStrAux (s ++ '"' :: r) = some (s, r) := by
  induction s with
  | nil => simp [pyEvalStrAux]
  | cons c cs ih =>
    have hc : ¬(c = '"') := h c (List.mem_cons_self c cs)
    rw [List.cons_append]
    simp only [pyEvalStrAux, if_neg hc]
    rw [ih (fun d hd => h d (List.mem_cons_of_mem c hd))]
    rfl

/-- The serialized join is at least as long as the element count. -/
theorem pyJoin_quote_length (ss : List (List Char)) :
    ss.length ≤ (pyJoin [',', ' '] (ss.map jsonQuote)).length := by
  induction ss with
  | nil => simp [pyJoin]
  | cons s ss ih =>
    cases ss with
    | nil =>
      simp only [List.map_cons, List.map_nil]
      have : pyJoin [',', ' '] [jsonQuote s] = jsonQuote s := rfl
      rw [this]
      simp [jsonQuote]
    | cons s2 ss2 =>
      have hstep : pyJoin [',', ' ']
            ((s :: s2 :: ss2).map jsonQuote) =
          jsonQuote s ++ [',', ' '] ++
            pyJoin [',', ' '] ((s2 :: ss2).map jsonQuote) := rfl
      rw [hstep]
      simp only [List.length_append, List.length_cons] at ih ⊢
      omega

/-- Evaluating the serialized non-empty list recovers the elements. -/
theorem pyEvalItems_join :
    ∀ (ss : List (List Char)) (fuel : Nat), ss.length ≤ fuel →
      (∀ s ∈ ss, ∀ c ∈ s, ¬(c = '"')) → ss ≠ [] →
      pyEvalItems fuel (pyJoin [',', ' '] (ss.map jsonQuote) ++ [']']) =
        some ss := by
  intro ss
  induction ss with
  | nil => intro fuel _ _ h; exact absurd rfl h
  | cons s ss ih =>
    intro fuel hfuel hq _
    have hs : ∀ c ∈ s, ¬(c = '"') := hq s (List.mem_cons_self s ss)
    obtain ⟨f, rfl⟩ : ∃ f, fuel = f + 1 := by
      cases fuel with
      | zero => exact absurd hfuel (by simp)
      | succ f => exact ⟨f, rfl⟩
    cases ss with
    | nil =>
      have hshape : pyJoin [',', ' '] ([s].map jsonQuote) ++ [']'] =
          '"' :: (s ++ '"' :: [']']) := by
        simp [pyJoin, jsonQuote]
      rw [hshape]
      simp only [pyEvalItems]
      rw [pyEvalStrAux_append s [']'] hs]
      rfl
    | cons s2 ss2 =>
      have hshape : pyJoin [',', ' '] ((s :: s2 :: ss2).map jsonQuote)
            ++ [']'] =
          '"' :: (s ++ '"' :: (',' :: ' ' ::
            (pyJoin [',', ' '] ((s2 :: ss2).map jsonQuote) ++ [']']))) := by
        have hstep : pyJoin [',', ' '] ((s :: s2 :: ss2).map jsonQuote) =
            jsonQuote s ++ [',', ' '] ++
              pyJoin [',', ' '] ((s2 :: ss2).map jsonQuote) := rfl
        rw [hstep]
        simp [jsonQuote, List.append_assoc]
      rw [hshape]
      simp only [pyEvalItems]
      rw [pyEvalStrAux_append s _ hs]
      have hf : (s2 :: ss2).length ≤ f := by
        simp only [List.length_cons] at hfuel ⊢
        omega
      show Option.map (fun ss => s :: ss)
        (pyEvalItems f
          (pyJoin [',', ' '] ((s2 :: ss2).map jsonQuote) ++ [']'])) =
        some (s :: s2 :: ss2)
      rw [ih f hf (fun v hv => hq v (List.mem_cons_of_mem s hv)) (by simp)]
      rfl

/-- Claim C3 exhibit: on the URL lists the repository stores (strings free
of double quotes), evaluating the serialized `json.dumps` output — which
is what the knowledge-base page does with `eval` — recovers exactly the
saved list.  The recovery works, but through the generic expression
evaluator, not a structured decoder. -/
theorem saved_sources_readback :
    ∀ ss : List (List Char), (∀ s ∈ ss, ∀ c ∈ s, ¬(c = '"')) →
      pyEvalList (jsonDumpsList ss) = some ss := by
  intro ss hq
  cases ss with
  | nil => rfl
  | cons s ss2 =>
    have hne2 : pyJoin [',', ' '] ((s :: ss2).map jsonQuote) ++ [']'] ≠
        [']'] := by
      intro hcontra
      have hlen := congrArg List.length hcontra
      have hj := pyJoin_quote_length (s :: ss2)
      simp only [List.length_append, List.length_cons] at hlen hj
      omega
    show pyEvalList
      ('[' :: (pyJoin [',', ' '] ((s :: ss2).map jsonQuote) ++ [']'])) =
        some (s :: ss2)
    simp only [pyEvalList]
    rw [if_neg hne2]
    refine pyEvalItems_join (s :: ss2) _ ?_ hq (by simp)
    have hj := pyJoin_quote_length (s :: ss2)
    simp only [List.length_append, List.length_cons] at hj ⊢
    omega

theorem saved_sources_readback_witness :
    pyEvalList (jsonDumpsList [("http://a.example".toList)]) =
      some [("http://a.example".toList)] :=
  saved_sources_readback [("http://a.example".toList)] (by decide)

/-! ## The persistence layer -/

/-- Claim C10: `save_report` returns `True` exactly when the commit
succeeds; success commits exactly the pending rows plus the new row, and
failure rolls the session back, leaving the committed reports unchanged. -/
theorem save_report_atomic :
    ∀ (commitOk : Bool) (st : DBState) (q c : List Char)
        (srcs : List (List Char)),
      ((save_report commitOk st q c srcs).1 = commitOk) ∧
        (commitOk = true →
          (save_report commitOk st q c srcs).2.committed =
              st.committed ++ st.pending ++ [⟨q, c, jsonDumpsList srcs⟩] ∧
            (save_report commitOk st q c srcs).2.pending = []) ∧
        (commitOk = false →
          (save_report commitOk st q c srcs).2.committed = st.committed ∧
            (save_report commitOk st q c srcs).2.pending = []) := by
  intro ok st q c srcs
  cases ok <;> simp [save_report, List.append_assoc]

theorem save_report_atomic_witness :
    (save_report false ⟨[], []⟩ ['q'] ['c'] []).1 = false ∧
      (save_report false ⟨[], []⟩ ['q'] ['c'] []).2.committed = [] ∧
      (save_report false ⟨[], []⟩ ['q'] ['c'] []).2.pending = [] :=
  ⟨(save_report_atomic false ⟨[], []⟩ ['q'] ['c'] []).1,
    ((save_report_atomic false ⟨[], []⟩ ['q'] ['c'] []).2.2 rfl).1,
    ((save_report_atomic false ⟨[], []⟩ ['q'] ['c'] []).2.2 rfl).2⟩

end Querra
